import Mathlib

/-!
Verification development for the komb parser-combinator library.

The input is modelled as a list of Unicode characters; byte-level facts
(UTF-8 lengths, character boundaries) are modelled explicitly via
`utf8Len`, `byteLen` and `byteSplit`.  Rust panics are modelled by the
`RunResult.panic` constructor; each parser is a function from the
remaining input to a `RunResult` that is either a panic, an error, or an
`(output, rest)` pair, mirroring `PResult` in the source.
-/

namespace Komb

/-- UTF-8 encoded length of a character, as in Rust `char::len_utf8`. -/
def utf8Len (c : Char) : Nat :=
  if c.toNat < 0x80 then 1
  else if c.toNat < 0x800 then 2
  else if c.toNat < 0x10000 then 3
  else 4

/-- Byte length of a string seen as its list of characters (`str::len`). -/
def byteLen (s : List Char) : Nat :=
  (s.map utf8Len).sum

/-- Splits a string at byte offset `n`.  Returns `none` when `n` is not a
character boundary, which is where Rust string slicing would panic. -/
def byteSplit : List Char → Nat → Option (List Char × List Char)
  | s, 0 => some ([], s)
  | [], _ + 1 => none
  | c :: rest, n + 1 =>
    if utf8Len c ≤ n + 1 then
      (byteSplit rest (n + 1 - utf8Len c)).map (fun pr => (c :: pr.1, pr.2))
    else
      none

/-- The error type of `komb::string` (`string::Error`), with spans kept as
the character content they point at. -/
inductive StrError where
  | «end»
  | unmatched (span : List Char)
  | notEnd
  | parseInt (span : List Char)
  | parseFloat (span : List Char)
  deriving DecidableEq, Repr

/-- Result of running a parser: a Rust panic, an error, or a success. -/
inductive RunResult (ε α : Type) where
  | panic
  | err (e : ε)
  | ok (a : α)
  deriving DecidableEq, Repr

/-- `true` exactly on the `err` constructor (Rust `Result::is_err`). -/
def RunResult.isErr : RunResult ε α → Bool
  | .err _ => true
  | _ => false

/-- A parser over input type `ι` with error type `ε` and output type `α`,
mirroring `Parser<'a, I, O, E>` from the source. -/
def Parser (ι ε α : Type) : Type := ι → RunResult ε (α × ι)

/-- A parser over string input, the instantiation used by `komb::string`. -/
def CParser (ε α : Type) : Type := Parser (List Char) ε α

/-- The literal matcher `impl Parser for &str` from `string.rs`: succeeds
iff the input starts with the literal; on failure returns end-of-input if
the input is byte-shorter than the literal, otherwise slices the input at
the literal's byte length (panicking off a character boundary) to build
the unmatched span. -/
def litRun (lit : List Char) : CParser StrError (List Char) := fun input =>
  if lit.isPrefixOf input then
    .ok (input.take lit.length, input.drop lit.length)
  else if byteLen input < byteLen lit then
    .err .end
  else
    match byteSplit input (byteLen lit) with
    | some (pre, _) => .err (.unmatched pre)
    | none => .panic

/-- Rust `char::to_ascii_lowercase`. -/
def asciiLower (c : Char) : Char :=
  if 'A' ≤ c ∧ c ≤ 'Z' then Char.ofNat (c.toNat + 32) else c

/-- Outcome of the matching loop inside `anycase`. -/
inductive AnycaseOut where
  | matched (k : Nat)
  | endHit
  | mismatch (k : Nat)
  deriving DecidableEq, Repr

/-- The loop of `string::anycase`: walks the literal and the input in
parallel, counting matched characters. -/
def anycaseGo : List Char → List Char → Nat → AnycaseOut
  | [], _, k => .matched k
  | _ :: _, [], _ => .endHit
  | l :: ls, c :: cs, k =>
    if asciiLower l = asciiLower c then anycaseGo ls cs (k + 1)
    else .mismatch k

/-- `string::anycase`: case-insensitive (ASCII fold) literal matcher. -/
def anycaseRun (lit : List Char) : CParser StrError (List Char) := fun input =>
  match anycaseGo lit input 0 with
  | .matched k => .ok (input.take k, input.drop k)
  | .endHit => .err .end
  | .mismatch k => .err (.unmatched (input.take (k + 1)))

/-- The character-counting loop of `string::take`: the counter starts at
zero and is incremented before the comparison with `length`, so the split
fires after the `length`-th character. -/
def takeAux (len : Nat) : Nat → List Char → Option Nat
  | _, [] => none
  | cur, _ :: rest =>
    if cur + 1 = len then some (cur + 1) else takeAux len (cur + 1) rest

/-- `string::take`: takes exactly `len` characters from the input. -/
def takeRun (len : Nat) : CParser StrError (List Char) := fun input =>
  match takeAux len 0 input with
  | some k => .ok (input.take k, input.drop k)
  | none => .err .end

/-- The scanning loop of `string::take_while`: length of the maximal
prefix whose characters satisfy `f`. -/
def takeWhileCount (f : Char → Bool) : List Char → Nat
  | [] => 0
  | c :: cs => if f c then takeWhileCount f cs + 1 else 0

/-- `string::take_while`: cuts off the maximal prefix satisfying `f`;
fails with end-of-input when that prefix is empty. -/
def takeWhileRun (f : Char → Bool) : CParser StrError (List Char) := fun input =>
  match takeWhileCount f input with
  | 0 => .err .end
  | k + 1 => .ok (input.take (k + 1), input.drop (k + 1))

/-- `string::char`: matches the single leading character when it
satisfies the predicate. -/
def charRun (f : Char → Bool) : CParser StrError (List Char) := fun input =>
  match input with
  | [] => .err .end
  | c :: cs => if f c then .ok ([c], cs) else .err (.unmatched [c])

/-- The `impl Parser for char` literal character matcher. -/
def charLit (needle : Char) : CParser StrError (List Char) :=
  charRun (fun ch => ch = needle)

/-- `string::eof`: succeeds exactly on empty input. -/
def eofRun : CParser StrError Unit := fun input =>
  match input with
  | [] => .ok ((), [])
  | _ :: _ => .err .notEnd

/-- `string::or0`: returns an empty prefix at the start of the input when
the underlying parser fails. -/
def or0Run (p : CParser ε (List Char)) : CParser ε (List Char) := fun input =>
  match p input with
  | .ok r => .ok r
  | .err _ => .ok ([], input)
  | .panic => .panic

/-- `combinator::optional` (also `combinator::option`): wraps the output
in `some`; on failure returns `none` with the input unconsumed. -/
def optionalRun (p : Parser ι ε α) : Parser ι ε (Option α) := fun input =>
  match p input with
  | .ok (out, rest) => .ok (some out, rest)
  | .err _ => .ok (none, input)
  | .panic => .panic

/-- `combinator::not` from `combinator.rs`: swaps the results, carrying
the inner output as the error payload and the inner error as the output
together with the unconsumed input. -/
def notRun (p : Parser ι ε α) : Parser ι α ε := fun input =>
  match p input with
  | .ok (out, _) => .err out
  | .err e => .ok (e, input)
  | .panic => .panic

/-- `combinator::map_out`: transforms the output on success. -/
def mapOutRun (p : Parser ι ε α) (f : α → β) : Parser ι ε β := fun input =>
  match p input with
  | .ok (out, rest) => .ok (f out, rest)
  | .err e => .err e
  | .panic => .panic

/-- `combinator::value` (the `.value(v)` method): replaces the output. -/
def valueRun (p : Parser ι ε α) (v : β) : Parser ι ε β :=
  mapOutRun p (fun _ => v)

/-- The sequencing step generated by `impl_tuple!`: runs the first
parser, threads the remaining input into the second, and pairs the
outputs.  The generated arities 2..17 iterate exactly this step. -/
def seqRun (p : Parser ι ε α) (q : Parser ι ε β) : Parser ι ε (α × β) :=
  fun input =>
    match p input with
    | .panic => .panic
    | .err e => .err e
    | .ok (a, rest) =>
      match q rest with
      | .panic => .panic
      | .err e => .err e
      | .ok (b, rest2) => .ok ((a, b), rest2)

/-- Three-parser sequence, the `(p, q, r)` tuple instance. -/
def seq3Run (p : Parser ι ε α) (q : Parser ι ε β) (r : Parser ι ε γ) :
    Parser ι ε ((α × β) × γ) :=
  seqRun (seqRun p q) r

/-- The alternation generated by `impl_choice!` (and `Select::parse`):
tries the head parser and each parser of the tail in order on the same
input, returning the first success; the error of the last parser is the
error of the whole when every alternative fails.  The list is the
(non-empty) tuple of alternatives. -/
def choiceRun (p : Parser ι ε α) (ps : List (Parser ι ε α)) (input : ι) :
    RunResult ε (α × ι) :=
  match ps with
  | [] => p input
  | q :: qs =>
    match p input with
    | .ok r => .ok r
    | .err _ => choiceRun q qs input
    | .panic => .panic

/-- Outcome of the `fold` loop under a step budget. -/
inductive FoldOut (β ι : Type) where
  | out (acc : β) (rest : ι)
  | panicked
  | fuelOut
  deriving DecidableEq, Repr

/-- The loop of `combinator::fold`, indexed by the number of loop
iterations still allowed: applies the parser repeatedly, folding each
output into the accumulator and advancing the input, and exits the loop
returning the accumulator at the parser's first failure.  `fuelOut`
marks a run that did not exit within the budget; the Rust loop has no
budget and simply keeps running. -/
def foldSteps (p : Parser ι ε α) (apply : β → α → β) :
    Nat → β → ι → FoldOut β ι
  | 0, _, _ => .fuelOut
  | fuel + 1, acc, input =>
    match p input with
    | .ok (out, rest) => foldSteps p apply fuel (apply acc out) rest
    | .err _ => .out acc input
    | .panic => .panicked

/-- `string::consume`: runs the inner parser and returns the consumed
prefix, computed from the distance between the input and rest slices;
the `assert!(start < end)` in the source panics when nothing was
consumed. -/
def consumeRun (p : CParser ε α) : CParser ε (List Char) := fun input =>
  match p input with
  | .ok (_, rest) =>
    if input.length - rest.length = 0 then .panic
    else
      .ok (input.take (input.length - rest.length),
        input.drop (input.length - rest.length))
  | .err e => .err e
  | .panic => .panic

/-- The sign parser inside `impl_parse_float!`:
`optional(choice(('+', '-', ""))).value(())`. -/
def signRun : CParser StrError Unit :=
  valueRun (optionalRun (choiceRun (charLit '+') [charLit '-', litRun []])) ()

/-- `digits::<10>` from `string.rs`: `take_while(|c| c.is_digit(10))`. -/
def digits10 : CParser StrError (List Char) :=
  takeWhileRun (fun c => c.isDigit)

/-- The exponent parser inside `impl_parse_float!`:
`(anycase("e"), sign, digits::<10>)`. -/
def expRun : CParser StrError ((List Char × Unit) × List Char) :=
  seq3Run (anycaseRun ['e']) signRun digits10

/-- The number body inside `impl_parse_float!`: one of `digits '.'
digits?`, `digits? '.' digits`, or `digits`, followed by an optional
exponent. -/
def numberRun :
    CParser StrError (Unit × Option ((List Char × Unit) × List Char)) :=
  seqRun
    (choiceRun
      (valueRun (seq3Run digits10 (charLit '.') (or0Run digits10)) ())
      [valueRun (seq3Run (or0Run digits10) (charLit '.') digits10) (),
        valueRun digits10 ()])
    (optionalRun expRun)

/-- The full span recognizer inside `impl_parse_float!`: a sign followed
by the choice of `anycase("inf")`, `anycase("infinity")`,
`anycase("nan")` and the number body, all wrapped in `consume` to
recover the matched prefix. -/
def floatSpanRun : CParser StrError (List Char) :=
  consumeRun
    (seqRun signRun
      (choiceRun (valueRun (anycaseRun ['i', 'n', 'f']) ())
        [valueRun (anycaseRun ['i', 'n', 'f', 'i', 'n', 'i', 't', 'y']) (),
          valueRun (anycaseRun ['n', 'a', 'n']) (),
          valueRun numberRun ()]))

/-- A diagnostic context (`context.rs`): a message plus an optional span
recorded as a byte offset and length. -/
structure ContextM where
  message : String
  span : Option (Nat × Nat)
  deriving DecidableEq, Repr

/-- `Context::from_message`. -/
def ContextM.fromMessage (msg : String) : ContextM :=
  ⟨msg, none⟩

/-- The boxed error of `error.rs`: a stack of contexts. -/
structure ErrorM where
  stack : List ContextM
  deriving DecidableEq, Repr

/-- The `From<Context> for Error` conversion: a singleton stack. -/
def ErrorM.ofContext (c : ContextM) : ErrorM :=
  ⟨[c]⟩

/-- `Error::new`: collects an arbitrary collection of contexts. -/
def ErrorM.new (l : List ContextM) : ErrorM :=
  ⟨l⟩

/-- `Error::with_context`: pushes a context onto the end of the stack. -/
def ErrorM.withContext (e : ErrorM) (c : ContextM) : ErrorM :=
  ⟨e.stack ++ [c]⟩

/-- `Error::source`: the context at index 0; `none` models the panic of
indexing an empty stack. -/
def ErrorM.source (e : ErrorM) : Option ContextM :=
  e.stack.head?

/-- The remaining-input contract of `PResult`: every successful parse
leaves a remaining slice that is a suffix of the slice passed in. -/
def Suffixal (p : CParser ε α) : Prop :=
  ∀ input out rest, p input = .ok (out, rest) → rest <:+ input

end Komb

namespace Komb

/-- Claim C5: the claim states that `take(n)` succeeds whenever the input
holds at least `n` characters, including `n = 0` on any input.  This
theorem evaluates the code at the failing input: `take(0)` returns the
end-of-input error on every input, because the loop counter is
incremented before being compared with `0` and so never matches, while
`take(2)` on a three-character input behaves as described. -/
theorem take_zero_always_fails :
    takeRun 0 ['a', 'b', 'c'] = .err .end ∧
    takeRun 0 ([] : List Char) = .err .end ∧
    takeRun 2 ['a', 'b', 'c'] = .ok (['a', 'b'], ['c']) := by
  decide

/-- Claim C6: the claim states that an input beginning with the literal
`infinity` has all eight characters of the literal consumed.  This
theorem evaluates the code at the failing input: because
`anycase("inf")` is tried before `anycase("infinity")` in the choice,
the span recognizer of the float parser consumes only `inf` from the
input `infinity`, leaving `inity`; the `iNf` example from the claim does
hold. -/
theorem float_infinity_consumes_inf_only :
    floatSpanRun "infinity".toList = .ok ("inf".toList, "inity".toList) ∧
    floatSpanRun "iNf".toList = .ok ("iNf".toList, []) := by
  decide

/-- Claim C9: the claim states that every `Error` value holds a
non-empty stack of contexts.  This theorem evaluates the code at the
failing input: `Error::new` applied to an empty collection yields an
error whose stack is empty, on which `source` (which indexes the stack
at 0 and panics on an empty vector, modelled by `none`) has no context
to return. -/
theorem error_new_empty_stack :
    (ErrorM.new []).stack = [] ∧ (ErrorM.new []).source = none :=
  ⟨rfl, rfl⟩

/-- Claim C10: the claim states that the literal matcher never panics on
a mismatched input at least as long as the literal.  This theorem
evaluates the code at the failing input: with literal `a` and input `é`,
the input is 2 bytes, the literal 1 byte, the input does not start with
the literal, and the unmatched-span slice at byte offset 1 falls inside
the two-byte character, so the code panics. -/
theorem literal_panics_inside_char :
    litRun ['a'] ['é'] = .panic ∧
    byteLen ['a'] ≤ byteLen ['é'] ∧
    (['a'].isPrefixOf ['é'] : Bool) = false := by
  decide

/-- Claim C2 counterexample: the claim states the error is `Unmatched`
whenever the input is non-empty and mismatched, but with literal `abc`
and the non-empty, mismatched input `x` the code returns the
end-of-input error, because the byte-length comparison is checked
first. -/
theorem literal_short_mismatch_is_end :
    litRun ['a', 'b', 'c'] ['x'] = .err .end ∧
    (['x'] : List Char) ≠ [] ∧
    (['a', 'b', 'c'].isPrefixOf ['x'] : Bool) = false := by
  decide

end Komb

namespace Komb

theorem lit_concat :
    ∀ lit input out rest, litRun lit input = .ok (out, rest) →
      out ++ rest = input := by
  intro lit input out rest h
  simp only [litRun] at h
  split at h
  · simp only [RunResult.ok.injEq, Prod.mk.injEq] at h
    obtain ⟨h1, h2⟩ := h
    subst h1
    subst h2
    exact List.take_append_drop _ _
  · split at h
    · cases h
    · split at h
      · cases h
      · cases h

theorem takeWhile_concat :
    ∀ f input out rest, takeWhileRun f input = .ok (out, rest) →
      out ++ rest = input := by
  intro f input out rest h
  simp only [takeWhileRun] at h
  split at h
  · cases h
  · simp only [RunResult.ok.injEq, Prod.mk.injEq] at h
    obtain ⟨h1, h2⟩ := h
    subst h1
    subst h2
    exact List.take_append_drop _ _

theorem take_concat :
    ∀ n input out rest, takeRun n input = .ok (out, rest) →
      out ++ rest = input := by
  intro n input out rest h
  simp only [takeRun] at h
  split at h
  · simp only [RunResult.ok.injEq, Prod.mk.injEq] at h
    obtain ⟨h1, h2⟩ := h
    subst h1
    subst h2
    exact List.take_append_drop _ _
  · cases h

theorem char_concat :
    ∀ f input out rest, charRun f input = .ok (out, rest) →
      out ++ rest = input := by
  intro f input out rest h
  simp only [charRun] at h
  split at h
  · cases h
  · rename_i c cs
    split at h
    · simp only [RunResult.ok.injEq, Prod.mk.injEq] at h
      obtain ⟨h1, h2⟩ := h
      subst h1
      subst h2
      rfl
    · cases h

theorem anycase_concat :
    ∀ lit input out rest, anycaseRun lit input = .ok (out, rest) →
      out ++ rest = input := by
  intro lit input out rest h
  simp only [anycaseRun] at h
  split at h
  · simp only [RunResult.ok.injEq, Prod.mk.injEq] at h
    obtain ⟨h1, h2⟩ := h
    subst h1
    subst h2
    exact List.take_append_drop _ _
  · cases h
  · cases h

theorem seq_suffixal (p : CParser ε α) (q : CParser ε β)
    (hp : Suffixal p) (hq : Suffixal q) : Suffixal (seqRun p q) := by
  intro input out rest h
  simp only [seqRun] at h
  cases hp' : p input with
  | panic => rw [hp'] at h; cases h
  | err e => rw [hp'] at h; cases h
  | ok a =>
    obtain ⟨a, rest1⟩ := a
    rw [hp'] at h
    dsimp only at h
    cases hq' : q rest1 with
    | panic => rw [hq'] at h; cases h
    | err e => rw [hq'] at h; cases h
    | ok b =>
      obtain ⟨b, rest2⟩ := b
      rw [hq'] at h
      simp only [RunResult.ok.injEq, Prod.mk.injEq] at h
      obtain ⟨-, h2⟩ := h
      subst h2
      exact (hq rest1 b rest2 hq').trans (hp input a rest1 hp')

theorem choice_suffixal :
    ∀ (p : CParser ε α) (ps : List (CParser ε α)),
      Suffixal p → (∀ q ∈ ps, Suffixal q) →
      ∀ input out rest, choiceRun p ps input = .ok (out, rest) →
        rest <:+ input := by
  intro p ps
  induction ps generalizing p with
  | nil =>
    intro hp _ input out rest h
    simp only [choiceRun] at h
    exact hp input out rest h
  | cons q qs ih =>
    intro hp hqs input out rest h
    simp only [choiceRun] at h
    cases hp' : p input with
    | ok r =>
      rw [hp'] at h
      simp only [RunResult.ok.injEq] at h
      subst h
      exact hp input out rest hp'
    | err e =>
      rw [hp'] at h
      exact ih q (hqs q (by simp)) (fun q' hq' => hqs q' (by simp [hq']))
        input out rest h
    | panic => rw [hp'] at h; cases h

theorem fold_suffix (p : CParser ε α) (apply : β → α → β)
    (hp : Suffixal p) :
    ∀ fuel acc input accOut rest,
      foldSteps p apply fuel acc input = .out accOut rest →
        rest <:+ input := by
  intro fuel
  induction fuel with
  | zero =>
    intro acc input accOut rest h
    simp only [foldSteps] at h
    cases h
  | succ n ih =>
    intro acc input accOut rest h
    simp only [foldSteps] at h
    cases hp' : p input with
    | ok a =>
      obtain ⟨out1, rest1⟩ := a
      rw [hp'] at h
      exact (ih _ _ _ _ h).trans (hp input out1 rest1 hp')
    | err e =>
      rw [hp'] at h
      simp only [FoldOut.out.injEq] at h
      obtain ⟨-, h2⟩ := h
      subst h2
      exact List.suffix_rfl
    | panic => rw [hp'] at h; cases h

theorem optional_suffixal (p : CParser ε α) (hp : Suffixal p) :
    Suffixal (optionalRun p) := by
  intro input out rest h
  simp only [optionalRun] at h
  cases hp' : p input with
  | ok a =>
    obtain ⟨out1, rest1⟩ := a
    rw [hp'] at h
    simp only [RunResult.ok.injEq, Prod.mk.injEq] at h
    obtain ⟨-, h2⟩ := h
    subst h2
    exact hp input out1 rest1 hp'
  | err e =>
    rw [hp'] at h
    simp only [RunResult.ok.injEq, Prod.mk.injEq] at h
    obtain ⟨-, h2⟩ := h
    subst h2
    exact List.suffix_rfl
  | panic => rw [hp'] at h; cases h

/-- Claim C1: for the primitive matchers, whenever parsing succeeds the
consumed prefix concatenated with the remaining slice equals the
original input, and for the structural combinators (tuple sequencing,
choice, fold, optional) the remaining slice is a suffix of the input
whenever every component parser has that property. -/
theorem roundtrip_invariant :
    (∀ lit input out rest, litRun lit input = .ok (out, rest) →
      out ++ rest = input) ∧
    (∀ f input out rest, takeWhileRun f input = .ok (out, rest) →
      out ++ rest = input) ∧
    (∀ n input out rest, takeRun n input = .ok (out, rest) →
      out ++ rest = input) ∧
    (∀ f input out rest, charRun f input = .ok (out, rest) →
      out ++ rest = input) ∧
    (∀ lit input out rest, anycaseRun lit input = .ok (out, rest) →
      out ++ rest = input) ∧
    (∀ {ε α β : Type} (p : CParser ε α) (q : CParser ε β),
      Suffixal p → Suffixal q → Suffixal (seqRun p q)) ∧
    (∀ {ε α : Type} (p : CParser ε α) (ps : List (CParser ε α)),
      Suffixal p → (∀ q ∈ ps, Suffixal q) →
      ∀ input out rest, choiceRun p ps input = .ok (out, rest) →
        rest <:+ input) ∧
    (∀ {ε α β : Type} (p : CParser ε α) (apply : β → α → β),
      Suffixal p →
      ∀ fuel acc input accOut rest,
        foldSteps p apply fuel acc input = .out accOut rest →
          rest <:+ input) ∧
    (∀ {ε α : Type} (p : CParser ε α), Suffixal p →
      Suffixal (optionalRun p)) :=
  ⟨lit_concat, takeWhile_concat, take_concat, char_concat, anycase_concat,
    fun p q hp hq => seq_suffixal p q hp hq,
    fun p ps hp hps => choice_suffixal p ps hp hps,
    fun p apply hp => fold_suffix p apply hp,
    fun p hp => optional_suffixal p hp⟩

/-- Claim C1 witness: the invariant applied to the literal matcher on a
concrete input. -/
theorem roundtrip_invariant_witness :
    litRun ['a', 'b'] ['a', 'b', 'c'] = .ok (['a', 'b'], ['c']) ∧
    (['a', 'b'] : List Char) ++ ['c'] = ['a', 'b', 'c'] :=
  ⟨by decide, roundtrip_invariant.1 ['a', 'b'] ['a', 'b', 'c'] ['a', 'b']
    ['c'] (by decide)⟩

end Komb

namespace Komb

/-- Claim C2 (amended): `literal(L).parse(s)` succeeds iff `s` starts
with `L`, in which case it consumes exactly `len(L)` bytes and the
remaining slice is `s` with that prefix dropped; on failure it reports
end-of-input exactly when `s` is byte-shorter than `L`, and unmatched
when `s` is at least `len(L)` bytes long, mismatched, and byte offset
`len(L)` is a character boundary of `s`. -/
theorem literal_spec (lit input : List Char) :
    (lit.isPrefixOf input = true →
      litRun lit input = .ok (lit, input.drop lit.length)) ∧
    (∀ out rest, litRun lit input = .ok (out, rest) →
      lit.isPrefixOf input = true ∧ out = lit ∧ out ++ rest = input ∧
        byteLen out = byteLen lit) ∧
    (lit.isPrefixOf input = false → byteLen input < byteLen lit →
      litRun lit input = .err .end) ∧
    (lit.isPrefixOf input = false → byteLen lit ≤ byteLen input →
      ∀ pre suf, byteSplit input (byteLen lit) = some (pre, suf) →
        litRun lit input = .err (.unmatched pre)) := by
  refine ⟨?_, ?_, ?_, ?_⟩
  · intro h
    have hpre : lit <+: input := List.isPrefixOf_iff_prefix.mp h
    have htake : input.take lit.length = lit :=
      (List.prefix_iff_eq_take.mp hpre).symm
    simp only [litRun, h, if_true, htake]
  · intro out rest h
    simp only [litRun] at h
    split at h
    · rename_i hpb
      simp only [RunResult.ok.injEq, Prod.mk.injEq] at h
      obtain ⟨h1, h2⟩ := h
      have hpre : lit <+: input := List.isPrefixOf_iff_prefix.mp hpb
      have htake : input.take lit.length = lit :=
        (List.prefix_iff_eq_take.mp hpre).symm
      subst h1
      subst h2
      exact ⟨hpb, htake, List.take_append_drop _ _, by rw [htake]⟩
    · split at h
      · cases h
      · split at h
        · cases h
        · cases h
  · intro h hl
    simp only [litRun, h, Bool.false_eq_true, if_false, hl, if_true]
  · intro h hl pre suf hsplit
    have hnl : ¬ byteLen input < byteLen lit := Nat.not_lt.mpr hl
    simp only [litRun, h, Bool.false_eq_true, if_false, hnl, hsplit]

/-- Claim C2 witness: the amended statement applied to the literal `ab`
on the input `abc`. -/
theorem literal_spec_witness :
    (['a', 'b'].isPrefixOf ['a', 'b', 'c'] : Bool) = true ∧
    litRun ['a', 'b'] ['a', 'b', 'c'] = .ok (['a', 'b'], ['c']) :=
  ⟨by decide, (literal_spec ['a', 'b'] ['a', 'b', 'c']).1 (by decide)⟩

end Komb

namespace Komb

/-- Claim C4: `fold` repeatedly applies the parser to the current
remaining input, folding each output into the accumulator and advancing;
one loop iteration at a success continues with the combined accumulator
and the advanced input, the loop exits at the parser's first failure
returning the accumulator and the input as it stood before that failing
attempt (so a parser that never succeeds yields the seed and the input
unchanged), and whenever the loop exits normally the parser fails on the
returned input.  The loop body only exits at an error and the function
then returns a success, so a normal exit is never an error, which the
embedding states by `FoldOut.out` being the only loop-exit
constructor. -/
theorem fold_spec (p : Parser ι ε α) (apply : β → α → β) :
    (∀ fuel acc input, (p input).isErr = true →
      foldSteps p apply (fuel + 1) acc input = .out acc input) ∧
    (∀ fuel acc input out rest, p input = .ok (out, rest) →
      foldSteps p apply (fuel + 1) acc input =
        foldSteps p apply fuel (apply acc out) rest) ∧
    (∀ fuel acc input accOut rest,
      foldSteps p apply fuel acc input = .out accOut rest →
        (p rest).isErr = true) := by
  refine ⟨?_, ?_, ?_⟩
  · intro fuel acc input herr
    simp only [foldSteps]
    cases hp : p input with
    | ok a => rw [hp] at herr; cases herr
    | err e => rfl
    | panic => rw [hp] at herr; cases herr
  · intro fuel acc input out rest hp
    simp only [foldSteps, hp]
  · intro fuel
    induction fuel with
    | zero =>
      intro acc input accOut rest h
      simp only [foldSteps] at h
      cases h
    | succ n ih =>
      intro acc input accOut rest h
      simp only [foldSteps] at h
      cases hp : p input with
      | ok a =>
        obtain ⟨out1, rest1⟩ := a
        rw [hp] at h
        exact ih _ _ _ _ h
      | err e =>
        rw [hp] at h
        simp only [FoldOut.out.injEq] at h
        obtain ⟨-, h2⟩ := h
        subst h2
        simp only [RunResult.isErr, hp]
      | panic => rw [hp] at h; cases h

/-- Claim C4 witness: folding a literal parser that fails immediately on
the input `a` returns the seed and the unchanged input. -/
theorem fold_spec_witness :
    (litRun ['z'] ['a']).isErr = true ∧
    foldSteps (litRun ['z']) (fun (n : Nat) _ => n + 1) 1 0 ['a'] =
      .out 0 ['a'] :=
  ⟨by decide, (fold_spec (litRun ['z']) (fun n _ => n + 1)).1 0 0 ['a']
    (by decide)⟩

/-- Claim C7: `not(p)` fails exactly when `p` succeeds, carrying `p`'s
output as the failure payload; when `p` fails, `not(p)` succeeds,
returning `p`'s error as its output together with the original,
unconsumed input. -/
theorem not_spec (p : Parser ι ε α) (input : ι) :
    (∀ out rest, p input = .ok (out, rest) → notRun p input = .err out) ∧
    (∀ e, p input = .err e → notRun p input = .ok (e, input)) ∧
    (∀ x, notRun p input = .err x → ∃ rest, p input = .ok (x, rest)) ∧
    (∀ e rest, notRun p input = .ok (e, rest) →
      p input = .err e ∧ rest = input) := by
  refine ⟨?_, ?_, ?_, ?_⟩
  · intro out rest h
    simp only [notRun, h]
  · intro e h
    simp only [notRun, h]
  · intro x h
    simp only [notRun] at h
    cases hp : p input with
    | ok a =>
      obtain ⟨out1, rest1⟩ := a
      rw [hp] at h
      simp only [RunResult.err.injEq] at h
      subst h
      exact ⟨rest1, rfl⟩
    | err e => rw [hp] at h; cases h
    | panic => rw [hp] at h; cases h
  · intro e rest h
    simp only [notRun] at h
    cases hp : p input with
    | ok a => obtain ⟨out1, rest1⟩ := a; rw [hp] at h; cases h
    | err e1 =>
      rw [hp] at h
      simp only [RunResult.ok.injEq, Prod.mk.injEq] at h
      obtain ⟨h1, h2⟩ := h
      subst h1
      subst h2
      exact ⟨rfl, rfl⟩
    | panic => rw [hp] at h; cases h

/-- Claim C7 witness: `not` of a successful single-character parser
fails with that parser's output as the payload. -/
theorem not_spec_witness :
    charLit 'a' ['a'] = .ok (['a'], []) ∧
    notRun (charLit 'a') ['a'] = .err ['a'] :=
  ⟨by decide, (not_spec (charLit 'a') ['a']).1 ['a'] [] (by decide)⟩

theorem fold_exits (p : CParser ε α) (apply : β → α → β)
    (hprog : ∀ input out rest, p input = .ok (out, rest) →
      rest.length < input.length)
    (hnopanic : ∀ input, p input ≠ .panic) :
    ∀ fuel (input : List Char) acc, input.length < fuel →
      ∃ accOut rest, foldSteps p apply fuel acc input = .out accOut rest := by
  intro fuel
  induction fuel with
  | zero =>
    intro input acc h
    exact absurd h (Nat.not_lt_zero _)
  | succ n ih =>
    intro input acc h
    simp only [foldSteps]
    cases hp : p input with
    | ok a =>
      obtain ⟨out1, rest1⟩ := a
      have hlt : rest1.length < input.length := hprog input out1 rest1 hp
      exact ih rest1 (apply acc out1) (by omega)
    | err e => exact ⟨acc, input, rfl⟩
    | panic => exact absurd hp (hnopanic input)

/-- Claim C8: if every success of `p` consumes at least one character
and `p` never panics, then the `fold` loop exits within
`input.length + 1` iterations, returning the accumulated value and the
remaining input: the parse runs to completion. -/
theorem fold_terminates (p : CParser ε α) (apply : β → α → β)
    (hprog : ∀ input out rest, p input = .ok (out, rest) →
      rest.length < input.length)
    (hnopanic : ∀ input, p input ≠ .panic)
    (input : List Char) (acc : β) :
    ∃ accOut rest,
      foldSteps p apply (input.length + 1) acc input = .out accOut rest :=
  fold_exits p apply hprog hnopanic (input.length + 1) input acc
    (Nat.lt_succ_self _)

/-- Claim C8 witness: folding the always-consuming any-character parser
over the two-character input `ab` exits within three iterations. -/
theorem fold_terminates_witness :
    ∃ accOut rest,
      foldSteps (charRun (fun _ => true)) (fun (n : Nat) _ => n + 1)
        (("ab".toList).length + 1) 0 "ab".toList = .out accOut rest :=
  fold_terminates (charRun (fun _ => true)) (fun n _ => n + 1)
    (by
      intro input out rest h
      cases input with
      | nil => simp [charRun] at h
      | cons c cs =>
        simp only [charRun, if_true] at h
        simp only [RunResult.ok.injEq, Prod.mk.injEq] at h
        obtain ⟨-, h2⟩ := h
        subst h2
        simp)
    (by
      intro input
      cases input with
      | nil => simp [charRun]
      | cons c cs => simp [charRun])
    "ab".toList 0

end Komb

namespace Komb

theorem isErr_exists {x : RunResult ε α} (h : x.isErr = true) :
    ∃ e, x = .err e := by
  cases x with
  | panic => cases h
  | err e => exact ⟨e, rfl⟩
  | ok a => cases h

theorem choice_ok_iff (p : Parser ι ε α) (ps : List (Parser ι ε α))
    (input : ι) (r : α × ι) :
    choiceRun p ps input = .ok r ↔
      ∃ pre q post, p :: ps = pre ++ q :: post ∧
        (∀ q' ∈ pre, (q' input).isErr = true) ∧ q input = .ok r := by
  induction ps generalizing p with
  | nil =>
    simp only [choiceRun]
    constructor
    · intro h
      exact ⟨[], p, [], rfl, by simp, h⟩
    · rintro ⟨pre, q, post, heq, hpre, hq⟩
      cases pre with
      | nil =>
        simp only [List.nil_append, List.cons.injEq] at heq
        rw [heq.1]
        exact hq
      | cons a pre' =>
        simp only [List.cons_append, List.cons.injEq] at heq
        exact absurd heq.2.symm (List.append_ne_nil_of_right_ne_nil _
          (List.cons_ne_nil _ _))
  | cons q0 qs ih =>
    constructor
    · intro h
      simp only [choiceRun] at h
      cases hp : p input with
      | ok r0 =>
        rw [hp] at h
        simp only [RunResult.ok.injEq] at h
        subst h
        exact ⟨[], p, q0 :: qs, rfl, by simp, hp⟩
      | err e =>
        rw [hp] at h
        obtain ⟨pre, q, post, heq, hpre, hq⟩ := (ih q0).mp h
        refine ⟨p :: pre, q, post, by rw [List.cons_append, ← heq], ?_, hq⟩
        intro q' hq'
        rcases List.mem_cons.mp hq' with h' | h'
        · subst h'
          simp only [RunResult.isErr, hp]
        · exact hpre q' h'
      | panic => rw [hp] at h; cases h
    · rintro ⟨pre, q, post, heq, hpre, hq⟩
      simp only [choiceRun]
      cases pre with
      | nil =>
        simp only [List.nil_append, List.cons.injEq] at heq
        obtain ⟨he, -⟩ := heq
        subst he
        rw [hq]
      | cons a pre' =>
        simp only [List.cons_append, List.cons.injEq] at heq
        obtain ⟨he, ht⟩ := heq
        subst he
        obtain ⟨e, hpe⟩ := isErr_exists (hpre p (by simp))
        rw [hpe]
        exact (ih q0).mpr ⟨pre', q, post, ht, fun q' hq' =>
          hpre q' (by simp [hq']), hq⟩

theorem choice_last_err :
    ∀ (p : Parser ι ε α) (ps : List (Parser ι ε α)) (input : ι),
      (∀ q ∈ p :: ps, (q input).isErr = true) →
      choiceRun p ps input =
        ((p :: ps).getLast (List.cons_ne_nil p ps)) input := by
  intro p ps
  induction ps generalizing p with
  | nil =>
    intro input h
    simp only [choiceRun, List.getLast]
  | cons q0 qs ih =>
    intro input h
    obtain ⟨e, hpe⟩ := isErr_exists (h p (by simp))
    simp only [choiceRun, hpe]
    rw [ih q0 input (fun q hq => h q (by simp [List.mem_cons.mp hq]))]
    rw [List.getLast_cons (List.cons_ne_nil q0 qs)]

/-- Claim C3: `choice` tries the alternatives left to right, each
against the same original input: it returns a success exactly when some
alternative succeeds with that output and remaining input while every
alternative before it fails, and when every alternative fails it
returns exactly the result of the last alternative, discarding the
errors of the earlier ones. -/
theorem choice_spec (p : Parser ι ε α) (ps : List (Parser ι ε α))
    (input : ι) :
    (∀ r, choiceRun p ps input = .ok r ↔
      ∃ pre q post, p :: ps = pre ++ q :: post ∧
        (∀ q' ∈ pre, (q' input).isErr = true) ∧ q input = .ok r) ∧
    ((∀ q ∈ p :: ps, (q input).isErr = true) →
      choiceRun p ps input =
        ((p :: ps).getLast (List.cons_ne_nil p ps)) input) :=
  ⟨fun r => choice_ok_iff p ps input r, choice_last_err p ps input⟩

/-- Claim C3 witness: with two failing literal alternatives the choice
returns the result of the last one. -/
theorem choice_spec_witness :
    choiceRun (litRun ['a']) [litRun ['b']] ['x'] =
      (([litRun ['a'], litRun ['b']].getLast
        (List.cons_ne_nil (litRun ['a']) [litRun ['b']])) ['x']) :=
  (choice_spec (litRun ['a']) [litRun ['b']] ['x']).2 (by
    intro q hq
    rcases List.mem_cons.mp hq with h' | h'
    · subst h'
      decide
    · rcases List.mem_singleton.mp h' with rfl
      decide)

end Komb
